import Mathlib

/-!
# Verification of the calculator expression engine (`src/calc.py`)

This file gives a shallow embedding of the `CalculatorLogic` class of
`calc.py` and proves the frozen claims about it.

Modelling conventions:
* Python `float` (64-bit IEEE) is modelled as the exact rational type `ℚ`.
  All the concrete literals appearing in the claims are exactly
  representable, and the algorithmic content (precedence, associativity,
  stack discipline, error control flow) is independent of rounding.
* Python exceptions are modelled with `Except`: the two `raise ValueError`
  sites of `_evaluate_rpn` become `CalcErr.arity` (line 71, operator with
  fewer than two operands) and `CalcErr.malformed` (line 82, final stack not
  a singleton); `raise ZeroDivisionError` becomes `CalcErr.divZero`.
* Python lists used as stacks (append/pop at the end) are modelled as Lean
  lists with the top of the stack at the head.
* The mixed `list` of floats and operator strings built by `_to_rpn` is
  modelled by the inductive `Tok` (`num` for floats, `sym` for the
  single-character strings); number tokens carry their parsed value, which
  `_to_rpn` obtains via `float(token)`.
-/

instance {ε α : Type _} [DecidableEq ε] [DecidableEq α] : DecidableEq (Except ε α) := fun
  | .ok a, .ok b =>
    if h : a = b then .isTrue (by rw [h]) else .isFalse (by simp [h])
  | .ok _, .error _ => .isFalse (by simp)
  | .error _, .ok _ => .isFalse (by simp)
  | .error e, .error f =>
    if h : e = f then .isTrue (by rw [h]) else .isFalse (by simp [h])

namespace CalcPy

/-- Tokens: either a parsed number or a single-character symbol.  Used both
for the tokenizer output and for the RPN output of `_to_rpn` (where `sym`
tokens are the operator strings the Python code mixes with floats). -/
inductive Tok where
  | num : ℚ → Tok
  | sym : Char → Tok
  deriving DecidableEq, Repr

/-- The failure modes of the engine: `arity` and `malformed` are the two
`raise ValueError` sites of `_evaluate_rpn`, `divZero` is the
`raise ZeroDivisionError` site. -/
inductive CalcErr where
  | arity | divZero | malformed
  deriving DecidableEq, Repr

/-- The operator set `self.operators = {'+', '-', '*', '/'}`. -/
def opChars : List Char := ['+', '-', '*', '/']

/-- The characters matched by the symbol alternative `[()+\-*/]` of the
tokenizer regex. -/
def symChars : List Char := ['(', ')', '+', '-', '*', '/']

/-- Parse a run of decimal digits as a natural number. -/
def parseNat (l : List Char) : ℕ :=
  l.foldl (fun a c => 10 * a + (c.toNat - 48)) 0

/-- Value of a numeric literal with integer digits `ds` and optional
fraction digits `fs`; this is the exact value of Python's `float(token)`
for tokens matching `\d+(\.\d+)?` (up to float64 rounding, see the header
comment). -/
def litVal (ds : List Char) (fs : Option (List Char)) : ℚ :=
  (parseNat ds : ℚ) +
    (match fs with
     | some fr => (parseNat fr : ℚ) / (10 : ℚ) ^ fr.length
     | none => 0)

/-- Python `str.strip()`: remove leading and trailing whitespace. -/
def pyStrip (l : List Char) : List Char :=
  ((l.dropWhile Char.isWhitespace).reverse.dropWhile Char.isWhitespace).reverse

/-- Python `str.rstrip(cs)`: remove the maximal trailing run of characters
belonging to `cs` (the argument acts as a character set). -/
def rstripChars (cs : List Char) (l : List Char) : List Char :=
  (l.reverse.dropWhile (fun c => cs.contains c)).reverse

/-- `CalculatorLogic._strip_trailing_operators`:
`expression.strip().rstrip(''.join(self.operators))`. -/
def stripTrailingOperators (s : String) : String :=
  String.mk (rstripChars opChars (pyStrip s.data))

/-- The scanning loop of `re.findall(r'\d+\.\d+|\d+|[()+\-*/]', expr)`:
at each position, prefer a maximal `digits.digits` match, then a maximal
digit run, then a single symbol character; skip any other character.
The first argument is fuel (one unit per scanning step, each of which
consumes at least one character), so `fuel ≥ length` suffices; a fueled
definition is used so that the function reduces definitionally. -/
def tokenizeFuel : ℕ → List Char → List Tok
  | 0, _ => []
  | _ + 1, [] => []
  | f + 1, c :: cs =>
    if c.isDigit then
      let ds := List.takeWhile Char.isDigit (c :: cs)
      let rest := List.dropWhile Char.isDigit (c :: cs)
      -- the alternative `\d+\.\d+` succeeds exactly when the digit run is
      -- followed by `.` and another digit
      if rest.head? = some '.' ∧ ((rest.tail.head?).map Char.isDigit).getD false = true then
        Tok.num (litVal ds (some (rest.tail.takeWhile Char.isDigit))) ::
          tokenizeFuel f (rest.tail.dropWhile Char.isDigit)
      else
        Tok.num (litVal ds none) :: tokenizeFuel f rest
    else if c ∈ symChars then
      Tok.sym c :: tokenizeFuel f cs
    else
      tokenizeFuel f cs

/-- `CalculatorLogic._tokenize` on a character list. -/
def tokenizeL (l : List Char) : List Tok := tokenizeFuel l.length l

/-- `CalculatorLogic._tokenize`. -/
def tokenize (s : String) : List Tok := tokenizeL s.data

/-- The precedence table `{'+': 1, '-': 1, '*': 2, '/': 2}` (the Python
code only looks up the four operator characters). -/
def prec (c : Char) : ℕ :=
  if c = '+' ∨ c = '-' then 1 else if c = '*' ∨ c = '/' then 2 else 0

/-- The condition `prev is None or prev in '(-+*/'` guarding the unary-minus
zero injection.  Python's substring test holds exactly for the one-character
symbol tokens `(`, `-`, `+`, `*`, `/` (number tokens contain a digit, so
they are never substrings of `'(-+*/'`, and neither is `)`). -/
def unaryPrev : Option Tok → Bool
  | none => true
  | some (Tok.sym c) => ['(', '-', '+', '*', '/'].contains c
  | some (Tok.num _) => false

/-- The loop `while ops and ops[-1] != '(' and precedence[ops[-1]] >=
precedence[token]`: returns the popped operators (in pop order) and the
remaining stack. -/
def popGE (p : ℕ) : List Char → List Char × List Char
  | [] => ([], [])
  | c :: rest =>
    if c ≠ '(' ∧ p ≤ prec c then
      let r := popGE p rest
      (c :: r.1, r.2)
    else ([], c :: rest)

/-- The `)` handler: `while ops and ops[-1] != '('` popping to output, then
discarding the `(` if present.  Returns the popped operators and the
remaining stack (with the matching `(` removed). -/
def popUntilParen : List Char → List Char × List Char
  | [] => ([], [])
  | c :: rest =>
    if c = '(' then ([], rest)
    else
      let r := popUntilParen rest
      (c :: r.1, r.2)

/-- One iteration of the `for token in tokens` loop of
`CalculatorLogic._to_rpn`.  The state is `(output, ops, prev)`. -/
def rpnStep (s : List Tok × List Char × Option Tok) (t : Tok) :
    List Tok × List Char × Option Tok :=
  match s, t with
  | (out, ops, _), Tok.num q => (out ++ [Tok.num q], ops, some (Tok.num q))
  | (out, ops, prev), Tok.sym c =>
    if c ∈ opChars then
      -- `if token == '-' and (prev is None or prev in '(-+*/')`
      let out1 := if c = '-' ∧ unaryPrev prev then out ++ [Tok.num 0] else out
      let pr := popGE (prec c) ops
      (out1 ++ pr.1.map Tok.sym, c :: pr.2, some (Tok.sym c))
    else if c = '(' then
      (out, '(' :: ops, some (Tok.sym c))
    else if c = ')' then
      let pr := popUntilParen ops
      (out ++ pr.1.map Tok.sym, pr.2, some (Tok.sym c))
    else
      (out, ops, some (Tok.sym c))

/-- `CalculatorLogic._to_rpn`: run the loop, then `while ops:
output.append(ops.pop())` — note this final loop pops *everything* left on
the stack into the output, including any unmatched `(`. -/
def to_rpn (ts : List Tok) : List Tok :=
  let s := ts.foldl rpnStep ([], [], none)
  s.1 ++ s.2.1.map Tok.sym

/-- The `for token in tokens` loop of `CalculatorLogic._evaluate_rpn`,
returning the final stack (or the error raised inside the loop).  The stack
top is the list head. -/
def execStack : List ℚ → List Tok → Except CalcErr (List ℚ)
  | st, [] => .ok st
  | st, Tok.num q :: ts => execStack (q :: st) ts
  | st, Tok.sym c :: ts =>
    match st with
    | b :: a :: rest =>
      if c = '+' then execStack ((a + b) :: rest) ts
      else if c = '-' then execStack ((a - b) :: rest) ts
      else if c = '*' then execStack ((a * b) :: rest) ts
      else if c = '/' then
        if b = 0 then .error .divZero else execStack ((a / b) :: rest) ts
      else
        -- a symbol that is none of the four operators (e.g. an unmatched
        -- `(` left in the RPN): the if/elif chain matches nothing, so the
        -- two popped values are simply dropped
        execStack rest ts
    | _ => .error .arity

/-- `CalculatorLogic._evaluate_rpn`: run the loop, then fail unless the
stack holds exactly one value. -/
def evaluate_rpn (ts : List Tok) : Except CalcErr ℚ :=
  match execStack [] ts with
  | .ok [v] => .ok v
  | .ok _ => .error .malformed
  | .error e => .error e

/-- `CalculatorLogic.compute`: sanitize, tokenize, convert, evaluate. -/
def compute (s : String) : Except CalcErr ℚ :=
  evaluate_rpn (to_rpn (tokenize (stripTrailingOperators s)))

/-! ## Number rendering helpers (for `format_result` and f-strings) -/

/-- Little-endian decimal digits of `n` (empty for `0`), with fuel; `fuel ≥ n`
suffices since the digit count of `n` is at most `n` for `n ≥ 1`. -/
def natDigitsAux : ℕ → ℕ → List Char
  | 0, _ => []
  | f + 1, n => if n = 0 then [] else Nat.digitChar (n % 10) :: natDigitsAux f (n / 10)

/-- Decimal digit characters of `n`, most significant first (`"0"` for `0`). -/
def natDigits (n : ℕ) : List Char :=
  if n = 0 then ['0'] else (natDigitsAux n n).reverse

/-- Pad a digit list with leading zeros up to width `k`. -/
def padZeros (k : ℕ) (ds : List Char) : List Char :=
  List.replicate (k - ds.length) '0' ++ ds

/-- Round half to even to the nearest integer (the rounding of Python's
`round` and of its string formatting). -/
def rhe (x : ℚ) : ℤ :=
  let f := ⌊x⌋
  let d := x - (f : ℚ)
  if d < 1 / 2 then f
  else if 1 / 2 < d then f + 1
  else if f % 2 = 0 then f else f + 1

/-- Python `round(num, 6)`: round half to even at the sixth decimal.
(Python rounds the underlying binary float; on the exact rational model this
is exact decimal rounding.) -/
def roundTo6 (x : ℚ) : ℚ := ((rhe (x * 10 ^ 6) : ℚ)) / 10 ^ 6

/-- Python `f"{x:.6f}"`: fixed-point rendering with exactly six fractional
digits (rounding half to even). -/
def fixed6 (x : ℚ) : List Char :=
  let n := rhe (x * 10 ^ 6)
  let m := n.natAbs
  (if n < 0 then ['-'] else []) ++
    natDigits (m / 10 ^ 6) ++ '.' :: padZeros 6 (natDigits (m % 10 ^ 6))

/-- Python `str.rstrip(c)` for a single character. -/
def rstripChar (c : Char) (l : List Char) : List Char :=
  (l.reverse.dropWhile (fun x => x = c)).reverse

/-- Number of decimal digits of `⌊x⌋` for `x ≥ 1`; used as the decimal
exponent (plus one) of the scientific rendering.  `format_result` only takes
the scientific branch for `|v| > 1e15`, so only the `x ≥ 1` behaviour of the
model matters. -/
def decExp (x : ℚ) : ℕ := (natDigits x.floor.toNat).length - 1

/-- Rounded two-decimal mantissa (as an integer in `[100, 999]`) and
decimal exponent used by the scientific rendering, with the carry when the
mantissa rounds up to `10.00`. -/
def sciParts (v : ℚ) : ℤ × ℕ :=
  let x := |v|
  let e := decExp x
  let r := rhe (x / 10 ^ e * 100)
  if r = 1000 then (100, e + 1) else (r, e)

/-- Python `f"{x:.2e}"` for the magnitudes at which `format_result` uses it
(`|x| > 1e15`): scientific notation with a two-digit fraction, rounding half
to even, exponent at least two digits wide. -/
def sciFormat2 (v : ℚ) : List Char :=
  if v = 0 then ('0' :: '.' :: '0' :: '0' :: 'e' :: '+' :: ['0', '0'])
  else
    (if v < 0 then ['-'] else []) ++
      natDigits ((sciParts v).1.natAbs / 100) ++
      '.' :: padZeros 2 (natDigits ((sciParts v).1.natAbs % 100)) ++
      'e' :: '+' :: padZeros 2 (natDigits (sciParts v).2)

/-- `CalculatorLogic.format_result` on the exact rational model of the
numeric value. -/
def format_result (v : ℚ) : String :=
  if 10 ^ 15 < |v| then String.mk (sciFormat2 v)
  else
    let rounded := roundTo6 v
    let res := rstripChar '.' (rstripChar '0' (fixed6 rounded))
    if 11 < res.length then String.mk (res.take 11) else String.mk res

/-! ## Percentage resolver -/

/-- Does `l` match the anchored group `\d+(\.\d+)?` exactly (the percent
number of the `resolve_percentage` regex)? -/
def isNumShape (l : List Char) : Bool :=
  let ip := l.takeWhile Char.isDigit
  let rest := l.dropWhile Char.isDigit
  !ip.isEmpty &&
    (rest.isEmpty ||
      (match rest with
       | '.' :: fr => !fr.isEmpty && fr.all Char.isDigit
       | _ => false))

/-- Backtracking search of `re.search(r'(.+?)([+\-*/])(\d+(\.\d+)?)%$', s)`
restricted to the part before the final `%`: the lazy `(.+?)` makes the
match use the smallest possible split point, scanning left to right.
Returns `(group1, group2, group3)` on success. -/
def findSplit : List Char → List Char → Option (List Char × Char × List Char)
  | _, [] => none
  | pre, c :: rest =>
    if pre ≠ [] ∧ c ∈ opChars ∧ isNumShape rest = true then
      some (pre, c, rest)
    else findSplit (pre ++ [c]) rest

/-- The regex match of `resolve_percentage`: the string must end in `%` and
split as `<nonempty prefix><operator><number>%`. -/
def percMatch (l : List Char) : Option (List Char × Char × List Char) :=
  match l.getLast? with
  | some '%' => findSplit [] l.dropLast
  | _ => none

/-- Parse a `\d+(\.\d+)?` character sequence as its (exact) numeric value:
Python's `float(percent_str)`. -/
def parseDec (l : List Char) : ℚ :=
  let ip := l.takeWhile Char.isDigit
  let rest := l.dropWhile Char.isDigit
  match rest with
  | '.' :: fr => litVal ip (some fr)
  | _ => litVal ip none

/-- Smallest `k` such that `q * 10^k` is an integer, i.e. the number of
decimal places of a terminating decimal (`none` if `q` does not terminate
within the search bound, which covers every float64-representable value). -/
def minPow (q : ℚ) : Option ℕ :=
  (List.range 1100).find? (fun k => (q * (10 : ℚ) ^ k).den = 1)

/-- Python's `f"{x}"` float rendering, modelled for terminating decimals:
the exact decimal expansion with a `.0` suffix for integral values (Python's
shortest round-trip repr agrees with this on such values; for
non-terminating rationals — which float64 cannot hold exactly anyway — a
truncated 17-place expansion is used to keep the function total). -/
def pyFloatRepr (q : ℚ) : List Char :=
  match minPow q with
  | some k =>
    let n := (q * (10 : ℚ) ^ k).num
    let m := n.natAbs
    (if n < 0 then ['-'] else []) ++
      (if k = 0 then natDigits m ++ '.' :: ['0']
       else natDigits (m / 10 ^ k) ++ '.' :: padZeros k (natDigits (m % 10 ^ k)))
  | none =>
    let m := (|q| * (10 : ℚ) ^ 17).floor.toNat
    (if q < 0 then ['-'] else []) ++
      natDigits (m / 10 ^ 17) ++ '.' :: padZeros 17 (natDigits (m % 10 ^ 17))

/-- `CalculatorLogic.resolve_percentage`.  The Python method has no
`try`/`except`: when the pattern matches and `self.compute(base_expr)`
raises, the exception propagates to the caller, which the model expresses
with `Except.error`. -/
def resolve_percentage (s : String) : Except CalcErr String :=
  match percMatch s.data with
  | none => .ok s
  | some (pre, c, ds) =>
    match compute (String.mk pre) with
    | .error e => .error e
    | .ok base =>
      let percent := parseDec ds
      let pv := base * (percent / 100)
      .ok (String.mk (pre ++ c :: pyFloatRepr pv))

/-! ## Well-formed expressions (spec side)

The spec quantifies C1 over "well-formed expressions with balanced
parentheses under standard operator precedence and left-associativity".
The grammar below is that spec-side notion, written as the usual layered
grammar (additive expressions over multiplicative terms over atoms, with a
unary minus allowed at the head of an additive chain, i.e. at the start of
the whole expression or directly after `(`):

  E ::= ['-'] T (('+'|'-') T)*     T ::= F (('*'|'/') F)*
  F ::= number | '(' E ')'

`Ast` is a single inductive covering all three layers; `lvl` gives the
layer (`0` = atom, `1` = term, `2` = expression) and `WF` enforces the
layering (together with well-formed digit strings in literals).  `val` is
the mathematically correct value (exact rational arithmetic, division
guarded), and `strOf` renders the expression to its source string. -/

inductive Ast where
  | lit : List Char → Option (List Char) → Ast
  | paren : Ast → Ast
  | negHead : Ast → Ast
  | bin : Char → Ast → Ast → Ast
  deriving DecidableEq, Repr

/-- Grammar layer of the root production. -/
def lvl : Ast → ℕ
  | .lit _ _ => 0
  | .paren _ => 0
  | .negHead _ => 2
  | .bin c _ _ => if c = '*' ∨ c = '/' then 1 else 2

/-- Well-formedness: digit strings are nonempty digit runs, binary nodes
respect precedence layering, and a head minus applies to a term. -/
def WF : Ast → Bool
  | .lit ds fs =>
    !ds.isEmpty && ds.all Char.isDigit &&
      (match fs with
       | some fr => !fr.isEmpty && fr.all Char.isDigit
       | none => true)
  | .paren e => WF e
  | .negHead t => WF t && decide (lvl t ≤ 1)
  | .bin c l r =>
    WF l && WF r &&
      ((decide (c = '+' ∨ c = '-') && decide (lvl l ≤ 2) && decide (lvl r ≤ 1)) ||
       (decide (c = '*' ∨ c = '/') && decide (lvl l ≤ 1) && decide (lvl r = 0)))

/-- The mathematically correct value: standard precedence and
left-associativity are built into the grammar shape; division by zero is
undefined (`none`). -/
def val : Ast → Option ℚ
  | .lit ds fs => some (litVal ds fs)
  | .paren e => val e
  | .negHead t => (val t).map (fun x => 0 - x)
  | .bin c l r => do
    let vl ← val l
    let vr ← val r
    if c = '+' then pure (vl + vr)
    else if c = '-' then pure (vl - vr)
    else if c = '*' then pure (vl * vr)
    else if c = '/' then if vr = 0 then none else pure (vl / vr)
    else none

/-- Source-string rendering of a well-formed expression. -/
def strOf : Ast → List Char
  | .lit ds fs => ds ++ (match fs with | some fr => '.' :: fr | none => [])
  | .paren e => '(' :: strOf e ++ [')']
  | .negHead t => '-' :: strOf t
  | .bin c l r => strOf l ++ c :: strOf r

/-- Token sequence of a well-formed expression (what `_tokenize` produces
on `strOf`). -/
def toksOf : Ast → List Tok
  | .lit ds fs => [Tok.num (litVal ds fs)]
  | .paren e => Tok.sym '(' :: toksOf e ++ [Tok.sym ')']
  | .negHead t => Tok.sym '-' :: toksOf t
  | .bin c l r => toksOf l ++ Tok.sym c :: toksOf r

/-- Operators still sitting on the shunting-yard stack (innermost pending
chain) after the tokens of the expression have been consumed, bottom of
this segment last. -/
def pendOf : Ast → List Char
  | .lit _ _ => []
  | .paren _ => []
  | .negHead t => pendOf t ++ ['-']
  | .bin c _ r => pendOf r ++ [c]

/-- The output the converter has emitted after consuming the tokens of the
expression (the RPN minus the still-pending operators). -/
def bodyOf : Ast → List Tok
  | .lit ds fs => [Tok.num (litVal ds fs)]
  | .paren e => bodyOf e ++ (pendOf e).map Tok.sym
  | .negHead t => Tok.num 0 :: bodyOf t
  | .bin c l r => (bodyOf l ++ (pendOf l).map Tok.sym) ++ bodyOf r

/-- The full RPN translation of a well-formed expression. -/
def rpnOf (a : Ast) : List Tok := bodyOf a ++ (pendOf a).map Tok.sym

/-- The last token of (the rendering of) an expression. -/
def lastTok : Ast → Tok
  | .lit ds fs => Tok.num (litVal ds fs)
  | .paren _ => Tok.sym ')'
  | .negHead t => lastTok t
  | .bin _ _ r => lastTok r

/-- Does the rendering start with a unary minus? -/
def startsNeg : Ast → Bool
  | .negHead _ => true
  | .bin _ l _ => startsNeg l
  | _ => false

/-- Stack-top condition under which the tokens of a layer-`n` production can
be processed compositionally: an expression needs `(` (or nothing) on top, a
term additionally tolerates `+`/`-`, an atom anything. -/
def Guard : ℕ → List Char → Prop
  | _, [] => True
  | 0, _ :: _ => True
  | 1, c :: _ => c = '(' ∨ c = '+' ∨ c = '-'
  | _ + 2, c :: _ => c = '('

/-- Condition on the `prev` state entering the expression: if the rendering
starts with `-`, the unary-minus injection must fire. -/
def PrevOK (a : Ast) (prev : Option Tok) : Prop :=
  startsNeg a = true → unaryPrev prev = true

/-- The character (if any) following a rendered token must not extend a
number literal: not a digit and not `.`. -/
def goodNext (rest : List Char) : Prop :=
  ∀ c, rest.head? = some c → c.isDigit = false ∧ c ≠ '.'

/-- Successor stack of a successful operator application in
`_evaluate_rpn` (`b` is the top of the stack, `a` below it): the if/elif
chain of the loop body; an unrecognized symbol pushes nothing. -/
def symStep (a b : ℚ) (r : List ℚ) (c : Char) : List ℚ :=
  if c = '+' then (a + b) :: r
  else if c = '-' then (a - b) :: r
  else if c = '*' then (a * b) :: r
  else if c = '/' then (a / b) :: r
  else r

/-- Reachability of intermediate states of the `_evaluate_rpn` loop:
`Reaches st ts st' ts'` holds when the loop started on stack `st` and
tokens `ts` at some point has stack `st'` with tokens `ts'` left. -/
inductive Reaches : List ℚ → List Tok → List ℚ → List Tok → Prop where
  | refl (st : List ℚ) (ts : List Tok) : Reaches st ts st ts
  | num {st ts st' ts'} (q : ℚ) :
      Reaches (q :: st) ts st' ts' → Reaches st (Tok.num q :: ts) st' ts'
  | sym {b a : ℚ} {r ts st' ts'} (c : Char) (h : ¬(c = '/' ∧ b = 0)) :
      Reaches (symStep a b r c) ts st' ts' →
        Reaches (b :: a :: r) (Tok.sym c :: ts) st' ts'

/-! ### Helper lemmas -/

theorem execStack_append (xs ys : List Tok) : ∀ st, execStack st (xs ++ ys) =
    match execStack st xs with
    | .ok st' => execStack st' ys
    | .error e => .error e := by
  induction xs with
  | nil => intro st; rfl
  | cons t ts ih =>
    intro st
    match t with
    | Tok.num q =>
      simpa only [List.cons_append, execStack] using ih (q :: st)
    | Tok.sym c =>
      match st with
      | [] => rfl
      | [x] => rfl
      | b :: a :: rest =>
        simp only [List.cons_append, execStack]
        split_ifs <;> first | rfl | apply ih

theorem rpnOf_lit (ds : List Char) (fs : Option (List Char)) :
    rpnOf (Ast.lit ds fs) = [Tok.num (litVal ds fs)] := by
  simp [rpnOf, bodyOf, pendOf]

theorem rpnOf_paren (e : Ast) : rpnOf (Ast.paren e) = rpnOf e := by
  simp [rpnOf, bodyOf, pendOf]

theorem rpnOf_negHead (t : Ast) :
    rpnOf (Ast.negHead t) = Tok.num 0 :: (rpnOf t ++ [Tok.sym '-']) := by
  simp [rpnOf, bodyOf, pendOf]

theorem rpnOf_bin (c : Char) (l r : Ast) :
    rpnOf (Ast.bin c l r) = rpnOf l ++ (rpnOf r ++ [Tok.sym c]) := by
  simp [rpnOf, bodyOf, pendOf]

/-- Destructured form of well-formedness of a binary node. -/
theorem WF_bin_iff {c : Char} {l r : Ast} :
    WF (Ast.bin c l r) = true ↔
      WF l = true ∧ WF r = true ∧
        (((c = '+' ∨ c = '-') ∧ lvl l ≤ 2 ∧ lvl r ≤ 1) ∨
         ((c = '*' ∨ c = '/') ∧ lvl l ≤ 1 ∧ lvl r = 0)) := by
  simp [WF, Bool.and_eq_true, Bool.or_eq_true, decide_eq_true_eq, and_assoc]

theorem WF_negHead_iff {t : Ast} :
    WF (Ast.negHead t) = true ↔ WF t = true ∧ lvl t ≤ 1 := by
  simp [WF, Bool.and_eq_true, decide_eq_true_eq]

/-- Every pending operator is one of the four operator characters. -/
theorem pendOf_mem (a : Ast) (h : WF a = true) : ∀ c ∈ pendOf a, c ∈ opChars := by
  induction a with
  | lit ds fs => simp [pendOf]
  | paren e ih => simp [pendOf]
  | negHead t ih =>
    rw [WF_negHead_iff] at h
    simp only [pendOf, List.mem_append, List.mem_singleton]
    rintro c (hc | rfl)
    · exact ih h.1 c hc
    · simp [opChars]
  | bin c l r ihl ihr =>
    rw [WF_bin_iff] at h
    simp only [pendOf, List.mem_append, List.mem_singleton]
    rintro x (hx | rfl)
    · exact ihr h.2.1 x hx
    · rcases h.2.2 with ⟨hc, -⟩ | ⟨hc, -⟩ <;> rcases hc with rfl | rfl <;> simp [opChars]

/-- In a term (layer at most 1) every pending operator is `*` or `/`. -/
theorem pendOf_mem_hi (a : Ast) (h : WF a = true) (hl : lvl a ≤ 1) :
    ∀ c ∈ pendOf a, c = '*' ∨ c = '/' := by
  induction a with
  | lit ds fs => simp [pendOf]
  | paren e ih => simp [pendOf]
  | negHead t ih => simp [lvl] at hl
  | bin c l r ihl ihr =>
    rw [WF_bin_iff] at h
    have hc : c = '*' ∨ c = '/' := by
      rcases h.2.2 with ⟨hc, -⟩ | ⟨hc, -⟩
      · exfalso
        rcases hc with rfl | rfl <;> simp [lvl] at hl
      · exact hc
    have hr : lvl r = 0 := by
      rcases h.2.2 with ⟨hc', -⟩ | ⟨-, -, hr⟩
      · exfalso
        rcases hc' with rfl | rfl <;> simp [lvl] at hl
      · exact hr
    simp only [pendOf, List.mem_append, List.mem_singleton]
    rintro x (hx | rfl)
    · exact ihr h.2.1 (by omega) x hx
    · exact hc

theorem prec_ge_one {c : Char} (h : c ∈ opChars) : 1 ≤ prec c := by
  simp only [opChars, List.mem_cons, List.not_mem_nil, or_false] at h
  rcases h with rfl | rfl | rfl | rfl <;> simp [prec]

theorem opChars_ne_paren {c : Char} (h : c ∈ opChars) : c ≠ '(' := by
  simp only [opChars, List.mem_cons, List.not_mem_nil, or_false] at h
  rcases h with rfl | rfl | rfl | rfl <;> decide

/-- `popGE` splits a block of poppable operators from a stack whose head
stops the loop. -/
theorem popGE_eq (p : ℕ) (pd O : List Char)
    (h1 : ∀ c ∈ pd, c ≠ '(' ∧ p ≤ prec c)
    (h2 : O = [] ∨ ∃ c t, O = c :: t ∧ (c = '(' ∨ prec c < p)) :
    popGE p (pd ++ O) = (pd, O) := by
  induction pd with
  | nil =>
    rcases h2 with rfl | ⟨c, t, rfl, hc⟩
    · rfl
    · simp only [List.nil_append, popGE]
      rw [if_neg]
      rintro ⟨hne, hle⟩
      rcases hc with rfl | hlt
      · exact hne rfl
      · omega
  | cons d pd ih =>
    have hd := h1 d (List.mem_cons_self d pd)
    simp only [List.cons_append, popGE]
    rw [if_pos ⟨hd.1, hd.2⟩, List.append_eq,
      ih (fun c hc => h1 c (List.mem_cons_of_mem d hc))]

/-- `popGE` pops nothing when the stack is empty or starts with `(`. -/
theorem popGE_guard2 (p : ℕ) {O : List Char} (h : Guard 2 O) :
    popGE p O = ([], O) := by
  match O with
  | [] => rfl
  | c :: t =>
    have hc : c = '(' := h
    subst hc
    simp [popGE]

/-- `popUntilParen` pops a paren-free block and discards the `(` below it. -/
theorem popUntilParen_eq (pd O : List Char) (h : ∀ c ∈ pd, c ≠ '(') :
    popUntilParen (pd ++ '(' :: O) = (pd, O) := by
  induction pd with
  | nil => simp [popUntilParen]
  | cons d pd ih =>
    have hd := h d (List.mem_cons_self d pd)
    simp only [List.cons_append, popUntilParen]
    rw [if_neg hd, List.append_eq, ih (fun c hc => h c (List.mem_cons_of_mem d hc))]

/-- The last token of a well-formed expression never triggers the
unary-minus injection (it is a number or `)`). -/
theorem lastTok_not_unary (a : Ast) (h : WF a = true) :
    unaryPrev (some (lastTok a)) = false := by
  induction a with
  | lit ds fs => simp [lastTok, unaryPrev]
  | paren e ih => simp [lastTok, unaryPrev]
  | negHead t ih => exact ih (WF_negHead_iff.mp h).1
  | bin c l r ihl ihr => exact ihr (WF_bin_iff.mp h).2.1

/-- A term (layer at most 1) cannot start with a unary minus. -/
theorem startsNeg_of_low (a : Ast) (h : WF a = true) (hl : lvl a ≤ 1) :
    startsNeg a = false := by
  induction a with
  | lit ds fs => rfl
  | paren e ih => rfl
  | negHead t ih => simp [lvl] at hl
  | bin c l r ihl ihr =>
    rw [WF_bin_iff] at h
    have : lvl l ≤ 1 := by
      rcases h.2.2 with ⟨hc, -⟩ | ⟨-, hll, -⟩
      · exfalso
        rcases hc with rfl | rfl <;> simp [lvl] at hl
      · exact hll
    exact ihl h.1 this

theorem guard_nil (n : ℕ) : Guard n [] := by
  cases n with
  | zero => trivial
  | succ m => cases m <;> trivial

theorem guard_paren (n : ℕ) (O : List Char) : Guard n ('(' :: O) := by
  cases n with
  | zero => trivial
  | succ m =>
    cases m with
    | zero => exact Or.inl rfl
    | succ k => rfl

theorem guard_low (n : ℕ) (hn : n ≤ 1) (c : Char) (hc : c = '+' ∨ c = '-') (O : List Char) :
    Guard n (c :: O) := by
  match n, hn with
  | 0, _ => trivial
  | 1, _ =>
    rcases hc with rfl | rfl
    · exact Or.inr (Or.inl rfl)
    · exact Or.inr (Or.inr rfl)

theorem guard_mono {m n : ℕ} (hmn : m ≤ n) {O : List Char} (h : Guard n O) :
    Guard m O := by
  match O with
  | [] => exact guard_nil m
  | c :: t =>
    match m, n with
    | 0, _ => trivial
    | 1, 1 => exact h
    | 1, k + 2 => exact Or.inl h
    | j + 2, k + 2 => exact h

/-- `Guard 2` stacks stop the `popGE` loop at any threshold. -/
theorem guard2_stop (p : ℕ) {O : List Char} (h : Guard 2 O) :
    O = [] ∨ ∃ c t, O = c :: t ∧ (c = '(' ∨ prec c < p) := by
  match O with
  | [] => exact Or.inl rfl
  | c :: t => exact Or.inr ⟨c, t, rfl, Or.inl h⟩

/-- `Guard 1` stacks stop the `popGE` loop at threshold 2. -/
theorem guard1_stop {O : List Char} (h : Guard 1 O) :
    O = [] ∨ ∃ c t, O = c :: t ∧ (c = '(' ∨ prec c < 2) := by
  match O with
  | [] => exact Or.inl rfl
  | c :: t =>
    refine Or.inr ⟨c, t, rfl, ?_⟩
    rcases h with rfl | rfl | rfl
    · exact Or.inl rfl
    · exact Or.inr (by simp [prec])
    · exact Or.inr (by simp [prec])

theorem lvl_bin_add {c : Char} {l r : Ast} (hc : c = '+' ∨ c = '-') :
    lvl (Ast.bin c l r) = 2 := by
  rcases hc with rfl | rfl <;> rfl

theorem lvl_bin_mul {c : Char} {l r : Ast} (hc : c = '*' ∨ c = '/') :
    lvl (Ast.bin c l r) = 1 := by
  rcases hc with rfl | rfl <;> rfl

theorem unaryPrev_op {c : Char} (hc : c ∈ opChars) :
    unaryPrev (some (Tok.sym c)) = true := by
  simp only [opChars, List.mem_cons, List.not_mem_nil, or_false] at hc
  rcases hc with rfl | rfl | rfl | rfl <;> rfl

theorem rpnStep_lparen (out : List Tok) (O : List Char) (prev : Option Tok) :
    rpnStep (out, O, prev) (Tok.sym '(') = (out, '(' :: O, some (Tok.sym '(')) := rfl

theorem rpnStep_rparen (out : List Tok) (O : List Char) (prev : Option Tok) :
    rpnStep (out, O, prev) (Tok.sym ')') =
      (out ++ (popUntilParen O).1.map Tok.sym, (popUntilParen O).2, some (Tok.sym ')')) := rfl

theorem rpnStep_op (out : List Tok) (O : List Char) (prev : Option Tok)
    {c : Char} (hc : c ∈ opChars) :
    rpnStep (out, O, prev) (Tok.sym c) =
      ((if c = '-' ∧ unaryPrev prev then out ++ [Tok.num 0] else out) ++
         (popGE (prec c) O).1.map Tok.sym,
       c :: (popGE (prec c) O).2, some (Tok.sym c)) := by
  simp only [rpnStep, if_pos hc]

/-- Invariant of the conversion loop: processing the tokens of a
well-formed expression from a suitably guarded state appends the emitted
RPN body to the output and pushes the pending operator chain. -/
theorem rpn_loop (a : Ast) : ∀ (out : List Tok) (O : List Char) (prev : Option Tok),
    WF a = true → Guard (lvl a) O → PrevOK a prev →
    List.foldl rpnStep (out, O, prev) (toksOf a) =
      (out ++ bodyOf a, pendOf a ++ O, some (lastTok a)) := by
  induction a with
  | lit ds fs =>
    intro out O prev _ _ _
    simp [toksOf, rpnStep, bodyOf, pendOf, lastTok]
  | paren e ih =>
    intro out O prev hwf hG hP
    have hwe : WF e = true := hwf
    rw [toksOf, List.cons_append, List.foldl_cons, rpnStep_lparen, List.foldl_append,
      ih out ('(' :: O) (some (Tok.sym '(')) hwe (guard_paren _ _) (fun _ => rfl),
      List.foldl_cons, List.foldl_nil, rpnStep_rparen,
      popUntilParen_eq _ _ (fun c hc => opChars_ne_paren (pendOf_mem e hwe c hc))]
    simp [bodyOf, pendOf, lastTok, List.append_assoc]
  | negHead t ih =>
    intro out O prev hwf hG hP
    obtain ⟨hwt, hlt⟩ := WF_negHead_iff.mp hwf
    have hG2 : Guard 2 O := hG
    have hu : unaryPrev prev = true := hP rfl
    rw [toksOf, List.foldl_cons, rpnStep_op _ _ _ (by simp [opChars]),
      popGE_guard2 _ hG2, if_pos ⟨rfl, hu⟩]
    simp only [List.map_nil, List.append_nil]
    rw [ih (out ++ [Tok.num 0]) ('-' :: O) (some (Tok.sym '-')) hwt
      (guard_low _ hlt _ (Or.inr rfl) _) (fun _ => rfl)]
    simp [bodyOf, pendOf, lastTok, List.append_assoc]
  | bin c l r ihl ihr =>
    intro out O prev hwf hG hP
    obtain ⟨hwl, hwr, hcase⟩ := WF_bin_iff.mp hwf
    have hcop : c ∈ opChars := by
      rcases hcase with ⟨hc, -, -⟩ | ⟨hc, -, -⟩ <;>
        rcases hc with rfl | rfl <;> simp [opChars]
    have hGl : Guard (lvl l) O := by
      rcases hcase with ⟨hc, hll, -⟩ | ⟨hc, hll, -⟩
      · exact guard_mono hll (by rwa [lvl_bin_add hc] at hG)
      · exact guard_mono hll (by rwa [lvl_bin_mul hc] at hG)
    have hPl : PrevOK l prev := fun hsn => hP hsn
    rw [toksOf, List.foldl_append, ihl out O prev hwl hGl hPl, List.foldl_cons,
      rpnStep_op _ _ _ hcop]
    have hnu : ¬(c = '-' ∧ unaryPrev (some (lastTok l)) = true) := by
      rintro ⟨-, hu⟩
      rw [lastTok_not_unary l hwl] at hu
      exact Bool.false_ne_true hu
    rw [if_neg hnu]
    have hpop : popGE (prec c) (pendOf l ++ O) = (pendOf l, O) := by
      rcases hcase with ⟨hc, hll, -⟩ | ⟨hc, hll, -⟩
      · refine popGE_eq _ _ _ (fun x hx => ?_) ?_
        · have hxop := pendOf_mem l hwl x hx
          refine ⟨opChars_ne_paren hxop, ?_⟩
          have h1 := prec_ge_one hxop
          have hpc : prec c = 1 := by rcases hc with rfl | rfl <;> rfl
          omega
        · exact guard2_stop _ (by rwa [lvl_bin_add hc] at hG)
      · refine popGE_eq _ _ _ (fun x hx => ?_) ?_
        · have hx2 := pendOf_mem_hi l hwl hll x hx
          have hpc : prec c = 2 := by rcases hc with rfl | rfl <;> rfl
          rcases hx2 with rfl | rfl <;> exact ⟨by decide, by rw [hpc]; rfl⟩
        · have h1 : Guard 1 O := by rwa [lvl_bin_mul hc] at hG
          have hpc : prec c = 2 := by rcases hc with rfl | rfl <;> rfl
          rw [hpc]
          exact guard1_stop h1
    rw [hpop]
    have hGr : Guard (lvl r) (c :: O) := by
      rcases hcase with ⟨hc, -, hlr⟩ | ⟨hc, -, hlr⟩
      · exact guard_low _ hlr _ hc _
      · rw [hlr]; trivial
    have hPr : PrevOK r (some (Tok.sym c)) := fun _ => unaryPrev_op hcop
    rw [ihr _ (c :: O) (some (Tok.sym c)) hwr hGr hPr]
    simp [bodyOf, pendOf, lastTok, List.append_assoc]

/-- The full converter agrees with the compositional RPN translation on
well-formed token sequences. -/
theorem to_rpn_toksOf (a : Ast) (h : WF a = true) : to_rpn (toksOf a) = rpnOf a := by
  have hloop := rpn_loop a [] [] none h
    (by rw [show (lvl a : ℕ) = lvl a from rfl]; exact guard_nil _) (fun _ => rfl)
  rw [to_rpn, hloop]
  simp [rpnOf]

/-- Evaluating the compositional RPN translation of a well-formed
expression pushes its mathematical value onto any starting stack. -/
theorem exec_rpnOf (a : Ast) : ∀ (v : ℚ) (st : List ℚ), WF a = true → val a = some v →
    execStack st (rpnOf a) = .ok (v :: st) := by
  induction a with
  | lit ds fs =>
    intro v st _ hv
    rw [rpnOf_lit]
    simp only [val, Option.some.injEq] at hv
    subst hv
    rfl
  | paren e ih =>
    intro v st hwf hv
    rw [rpnOf_paren]
    exact ih v st hwf hv
  | negHead t ih =>
    intro v st hwf hv
    obtain ⟨hwt, -⟩ := WF_negHead_iff.mp hwf
    simp only [val, Option.map_eq_some'] at hv
    obtain ⟨vt, hvt, hfv⟩ := hv
    subst hfv
    rw [rpnOf_negHead]
    show execStack (0 :: st) (rpnOf t ++ [Tok.sym '-']) = _
    rw [execStack_append, ih vt (0 :: st) hwt hvt]
    rfl
  | bin c l r ihl ihr =>
    intro v st hwf hv
    obtain ⟨hwl, hwr, hcase⟩ := WF_bin_iff.mp hwf
    rw [val] at hv
    rcases hl : val l with - | vl
    · rw [hl] at hv
      simp at hv
    rcases hr : val r with - | vr
    · rw [hl, hr] at hv
      simp at hv
    rw [hl, hr] at hv
    simp only [bind, Option.bind] at hv
    rw [rpnOf_bin, execStack_append, ihl vl st hwl hl]
    show execStack (vl :: st) (rpnOf r ++ [Tok.sym c]) = _
    rw [execStack_append, ihr vr (vl :: st) hwr hr]
    show execStack (vr :: vl :: st) [Tok.sym c] = _
    rcases hcase with ⟨hc, -, -⟩ | ⟨hc, -, -⟩ <;> rcases hc with rfl | rfl
    · -- '+'
      simp at hv
      subst hv
      rfl
    · -- '-'
      simp at hv
      subst hv
      rfl
    · -- '*'
      simp at hv
      subst hv
      rfl
    · -- '/'
      simp at hv
      obtain ⟨hvr, hveq⟩ := hv
      subst hveq
      show (if vr = 0 then Except.error CalcErr.divZero
            else execStack ((vl / vr) :: st) []) = _
      rw [if_neg hvr]
      rfl

/-! ### Tokenizer lemmas -/

theorem takeWhile_all_append (p : Char → Bool) (l X : List Char)
    (h : ∀ c ∈ l, p c = true) :
    (l ++ X).takeWhile p = l ++ X.takeWhile p := by
  induction l with
  | nil => rfl
  | cons c t ih =>
    rw [List.cons_append, List.takeWhile_cons_of_pos (h c (List.mem_cons_self c t)),
      ih (fun d hd => h d (List.mem_cons_of_mem c hd)), List.cons_append]

theorem dropWhile_all_append (p : Char → Bool) (l X : List Char)
    (h : ∀ c ∈ l, p c = true) :
    (l ++ X).dropWhile p = X.dropWhile p := by
  induction l with
  | nil => rfl
  | cons c t ih =>
    rw [List.cons_append, List.dropWhile_cons_of_pos (h c (List.mem_cons_self c t)),
      ih (fun d hd => h d (List.mem_cons_of_mem c hd))]

theorem goodNext_takeWhile {rest : List Char} (h : goodNext rest) :
    rest.takeWhile Char.isDigit = [] := by
  cases rest with
  | nil => rfl
  | cons c t => rw [List.takeWhile_cons_of_neg (by simp [(h c rfl).1])]

theorem goodNext_dropWhile {rest : List Char} (h : goodNext rest) :
    rest.dropWhile Char.isDigit = rest := by
  cases rest with
  | nil => rfl
  | cons c t => rw [List.dropWhile_cons_of_neg (by simp [(h c rfl).1])]

theorem dropWhile_length_le (p : Char → Bool) (l : List Char) :
    (l.dropWhile p).length ≤ l.length := by
  induction l with
  | nil => simp
  | cons c t ih =>
    by_cases h : p c
    · rw [List.dropWhile_cons_of_pos h]
      simp only [List.length_cons]
      omega
    · rw [List.dropWhile_cons_of_neg h]

/-- The fueled tokenizer is fuel-irrelevant once the fuel covers the input
length. -/
theorem tokenizeFuel_irrel : ∀ (f g : ℕ) (l : List Char),
    l.length ≤ f → l.length ≤ g → tokenizeFuel f l = tokenizeFuel g l := by
  intro f
  induction f with
  | zero =>
    intro g l hf _
    have hl : l = [] := List.eq_nil_of_length_eq_zero (Nat.le_zero.mp hf)
    subst hl
    cases g <;> rfl
  | succ f ih =>
    intro g l hf hg
    match l with
    | [] => cases g <;> rfl
    | c :: cs =>
      match g, hg with
      | g + 1, hg =>
        have hcs : cs.length ≤ f := by
          simp only [List.length_cons] at hf
          omega
        have hcs' : cs.length ≤ g := by
          simp only [List.length_cons] at hg
          omega
        simp only [tokenizeFuel]
        by_cases hd : c.isDigit
        · rw [if_pos hd, if_pos hd]
          have hrest : (List.dropWhile Char.isDigit (c :: cs)).length ≤ cs.length := by
            rw [List.dropWhile_cons_of_pos hd]
            exact dropWhile_length_le _ _
          by_cases hfr : (List.dropWhile Char.isDigit (c :: cs)).head? = some '.' ∧
              (((List.dropWhile Char.isDigit (c :: cs)).tail.head?).map Char.isDigit).getD false = true
          · rw [if_pos hfr, if_pos hfr]
            congr 1
            have h2 : ((List.dropWhile Char.isDigit (c :: cs)).tail.dropWhile Char.isDigit).length ≤
                (List.dropWhile Char.isDigit (c :: cs)).tail.length :=
              dropWhile_length_le _ _
            have h3 : (List.dropWhile Char.isDigit (c :: cs)).tail.length ≤ cs.length := by
              rw [List.length_tail]
              omega
            exact ih _ _ (by omega) (by omega)
          · rw [if_neg hfr, if_neg hfr]
            congr 1
            exact ih _ _ (by omega) (by omega)
        · rw [if_neg hd, if_neg hd]
          by_cases hs : c ∈ symChars
          · rw [if_pos hs, if_pos hs]
            congr 1
            exact ih _ _ hcs hcs'
          · rw [if_neg hs, if_neg hs]
            exact ih _ _ hcs hcs'

theorem tokenizeFuel_eq_tokenizeL {f : ℕ} {l : List Char} (h : l.length ≤ f) :
    tokenizeFuel f l = tokenizeL l :=
  tokenizeFuel_irrel f l.length l h le_rfl

theorem tokenizeL_sym {c : Char} (h1 : c.isDigit = false) (h2 : c ∈ symChars)
    (l : List Char) : tokenizeL (c :: l) = Tok.sym c :: tokenizeL l := by
  show tokenizeFuel (l.length + 1) (c :: l) = _
  simp only [tokenizeFuel]
  rw [if_neg (by simp [h1]), if_pos h2]
  rfl

/-- Scanning a digit run with no fraction part. -/
theorem tokenizeFuel_num_int (f : ℕ) (ds X : List Char) (hne : ds ≠ [])
    (hdig : ∀ c ∈ ds, c.isDigit = true) (hX : goodNext X)
    (hf : (ds ++ X).length ≤ f + 1) :
    tokenizeFuel (f + 1) (ds ++ X) = Tok.num (litVal ds none) :: tokenizeL X := by
  match ds, hne with
  | d :: ds', _ =>
    have htw : List.takeWhile Char.isDigit ((d :: ds') ++ X) = d :: ds' := by
      rw [takeWhile_all_append _ _ _ hdig, goodNext_takeWhile hX, List.append_nil]
    have hdw : List.dropWhile Char.isDigit ((d :: ds') ++ X) = X := by
      rw [dropWhile_all_append _ _ _ hdig, goodNext_dropWhile hX]
    have hXf : X.length ≤ f := by
      simp only [List.length_append, List.length_cons] at hf
      omega
    rw [List.cons_append]
    simp only [tokenizeFuel]
    rw [if_pos (hdig d (List.mem_cons_self d ds'))]
    rw [show d :: (ds' ++ X) = (d :: ds') ++ X from rfl, htw, hdw]
    rw [if_neg ?hcond]
    case hcond =>
      rintro ⟨hdot, -⟩
      match X, hdot with
      | x :: xs, hdot =>
        have hx : x = '.' := by simpa using hdot
        exact absurd hx (hX x rfl).2
    rw [tokenizeFuel_eq_tokenizeL hXf]

/-- Scanning a digit run with a fraction part. -/
theorem tokenizeFuel_num_frac (f : ℕ) (ds fr X : List Char) (hne : ds ≠ [])
    (hdig : ∀ c ∈ ds, c.isDigit = true) (hfne : fr ≠ [])
    (hfdig : ∀ c ∈ fr, c.isDigit = true) (hX : goodNext X)
    (hf : (ds ++ '.' :: (fr ++ X)).length ≤ f + 1) :
    tokenizeFuel (f + 1) (ds ++ '.' :: (fr ++ X)) =
      Tok.num (litVal ds (some fr)) :: tokenizeL X := by
  match ds, hne with
  | d :: ds', _ =>
    have htw : List.takeWhile Char.isDigit ((d :: ds') ++ '.' :: (fr ++ X)) = d :: ds' := by
      rw [takeWhile_all_append _ _ _ hdig, List.takeWhile_cons_of_neg (by simp),
        List.append_nil]
    have hdw : List.dropWhile Char.isDigit ((d :: ds') ++ '.' :: (fr ++ X)) =
        '.' :: (fr ++ X) := by
      rw [dropWhile_all_append _ _ _ hdig, List.dropWhile_cons_of_neg (by simp)]
    have htw2 : List.takeWhile Char.isDigit (fr ++ X) = fr := by
      rw [takeWhile_all_append _ _ _ hfdig, goodNext_takeWhile hX, List.append_nil]
    have hdw2 : List.dropWhile Char.isDigit (fr ++ X) = X := by
      rw [dropWhile_all_append _ _ _ hfdig, goodNext_dropWhile hX]
    have hXf : X.length ≤ f := by
      simp only [List.length_append, List.length_cons] at hf
      omega
    rw [List.cons_append]
    simp only [tokenizeFuel]
    rw [if_pos (hdig d (List.mem_cons_self d ds'))]
    rw [show d :: (ds' ++ '.' :: (fr ++ X)) = (d :: ds') ++ '.' :: (fr ++ X) from rfl,
      htw, hdw]
    rw [if_pos ?hcond]
    case hcond =>
      refine ⟨rfl, ?_⟩
      match fr, hfne with
      | e :: fr', _ =>
        simp [hfdig e (List.mem_cons_self e fr')]
    simp only [List.tail_cons, htw2, hdw2]
    rw [tokenizeFuel_eq_tokenizeL hXf]

theorem opChar_not_digit {c : Char} (h : c ∈ opChars) :
    c.isDigit = false ∧ c ≠ '.' := by
  simp only [opChars, List.mem_cons, List.not_mem_nil, or_false] at h
  rcases h with rfl | rfl | rfl | rfl <;> exact ⟨rfl, by decide⟩

theorem opChar_mem_symChars {c : Char} (h : c ∈ opChars) : c ∈ symChars := by
  simp only [opChars, List.mem_cons, List.not_mem_nil, or_false] at h
  rcases h with rfl | rfl | rfl | rfl <;> simp [symChars]

theorem WF_lit_iff {ds : List Char} {fs : Option (List Char)} :
    WF (Ast.lit ds fs) = true ↔
      (ds ≠ [] ∧ ∀ c ∈ ds, c.isDigit = true) ∧
        ∀ fr, fs = some fr → fr ≠ [] ∧ ∀ c ∈ fr, c.isDigit = true := by
  cases fs with
  | none => simp [WF, List.all_eq_true, List.isEmpty_iff, and_comm]
  | some fr => simp [WF, List.all_eq_true, List.isEmpty_iff, and_comm, and_assoc]

theorem WF_bin_op {c : Char} {l r : Ast} (h : WF (Ast.bin c l r) = true) :
    c ∈ opChars := by
  obtain ⟨-, -, hcase⟩ := WF_bin_iff.mp h
  rcases hcase with ⟨hc, -, -⟩ | ⟨hc, -, -⟩ <;>
    rcases hc with rfl | rfl <;> simp [opChars]

/-- Tokenizing the rendering of a well-formed expression (followed by any
suffix that cannot extend its last literal) yields its token sequence. -/
theorem tokenizeFuel_strOf (a : Ast) : ∀ (rest : List Char) (f : ℕ),
    WF a = true → goodNext rest → (strOf a ++ rest).length ≤ f →
    tokenizeFuel f (strOf a ++ rest) = toksOf a ++ tokenizeL rest := by
  induction a with
  | lit ds fs =>
    intro rest f hwf hgn hlen
    obtain ⟨⟨hne, hdig⟩, hfr⟩ := WF_lit_iff.mp hwf
    cases f with
    | zero =>
      exfalso
      match ds, hne with
      | d :: ds', _ => simp [strOf, List.length_append] at hlen
    | succ f =>
      cases fs with
      | none =>
        rw [show strOf (Ast.lit ds none) ++ rest = ds ++ rest by simp [strOf]]
        rw [tokenizeFuel_num_int f ds rest hne hdig hgn
          (by simpa [strOf] using hlen)]
        simp [toksOf]
      | some fr =>
        obtain ⟨hfne, hfdig⟩ := hfr fr rfl
        rw [show strOf (Ast.lit ds (some fr)) ++ rest = ds ++ '.' :: (fr ++ rest) by
          simp [strOf]]
        rw [tokenizeFuel_num_frac f ds fr rest hne hdig hfne hfdig hgn
          (by simpa [strOf] using hlen)]
        simp [toksOf]
  | paren e ih =>
    intro rest f hwf hgn hlen
    have hwe : WF e = true := hwf
    have hsh : strOf (Ast.paren e) ++ rest = '(' :: (strOf e ++ (')' :: rest)) := by
      simp [strOf]
    rw [hsh] at hlen ⊢
    cases f with
    | zero => simp at hlen
    | succ f =>
      simp only [tokenizeFuel]
      rw [if_neg (by simp), if_pos (by simp [symChars])]
      rw [ih (')' :: rest) f hwe
        (by
          intro d hd
          simp only [List.head?_cons, Option.some.injEq] at hd
          subst hd
          exact ⟨rfl, by decide⟩)
        (by simp only [List.length_cons] at hlen; omega)]
      rw [tokenizeL_sym (by simp) (by simp [symChars]) rest]
      simp [toksOf]
  | negHead t ih =>
    intro rest f hwf hgn hlen
    obtain ⟨hwt, -⟩ := WF_negHead_iff.mp hwf
    have hsh : strOf (Ast.negHead t) ++ rest = '-' :: (strOf t ++ rest) := by
      simp [strOf]
    rw [hsh] at hlen ⊢
    cases f with
    | zero => simp at hlen
    | succ f =>
      simp only [tokenizeFuel]
      rw [if_neg (by simp), if_pos (by simp [symChars])]
      rw [ih rest f hwt hgn (by simp only [List.length_cons] at hlen; omega)]
      simp [toksOf]
  | bin c l r ihl ihr =>
    intro rest f hwf hgn hlen
    obtain ⟨hwl, hwr, -⟩ := WF_bin_iff.mp hwf
    have hcop : c ∈ opChars := WF_bin_op hwf
    have hsh : strOf (Ast.bin c l r) ++ rest = strOf l ++ (c :: (strOf r ++ rest)) := by
      simp [strOf]
    rw [hsh] at hlen ⊢
    rw [ihl (c :: (strOf r ++ rest)) f hwl
      (by
        intro d hd
        simp only [List.head?_cons, Option.some.injEq] at hd
        subst hd
        exact opChar_not_digit hcop)
      hlen]
    rw [tokenizeL_sym (opChar_not_digit hcop).1 (opChar_mem_symChars hcop) _]
    rw [show tokenizeL (strOf r ++ rest) =
      tokenizeFuel (strOf r ++ rest).length (strOf r ++ rest) from rfl]
    rw [ihr rest (strOf r ++ rest).length hwr hgn le_rfl]
    simp [toksOf]

/-- Tokenizing the rendering of a well-formed expression yields its token
sequence. -/
theorem tokenizeL_strOf (a : Ast) (h : WF a = true) :
    tokenizeL (strOf a) = toksOf a := by
  have h2 := tokenizeFuel_strOf a [] (strOf a ++ []).length h
    (by intro c hc; simp at hc) le_rfl
  simp only [List.append_nil] at h2
  rw [show tokenizeL (strOf a) = tokenizeFuel (strOf a).length (strOf a) from rfl, h2,
    show tokenizeL [] = [] from rfl, List.append_nil]

/-! ### Sanitizer lemmas for rendered expressions -/

theorem dropWhile_head_neg {p : Char → Bool} : ∀ {l : List Char},
    (∀ c ∈ l, p c = false) → l.dropWhile p = l := by
  intro l h
  cases l with
  | nil => rfl
  | cons c t =>
    rw [List.dropWhile_cons_of_neg (by simp [h c (List.mem_cons_self c t)])]

theorem isDigit_not_ws {c : Char} (h : c.isDigit = true) : c.isWhitespace = false := by
  by_contra hw
  rw [Bool.not_eq_false] at hw
  simp only [Char.isWhitespace, Bool.or_eq_true, decide_eq_true_eq] at hw
  rcases hw with ((rfl | rfl) | rfl) | rfl <;> simp at h

theorem strOf_not_ws (a : Ast) : WF a = true →
    ∀ c ∈ strOf a, c.isWhitespace = false := by
  induction a with
  | lit ds fs =>
    intro h c hc
    obtain ⟨⟨-, hdig⟩, hfr⟩ := WF_lit_iff.mp h
    simp only [strOf, List.mem_append] at hc
    rcases hc with hc | hc
    · exact isDigit_not_ws (hdig c hc)
    · cases fs with
      | none => simp at hc
      | some fr =>
        obtain ⟨-, hfdig⟩ := hfr fr rfl
        simp only [List.mem_cons] at hc
        rcases hc with rfl | hc
        · rfl
        · exact isDigit_not_ws (hfdig c hc)
  | paren e ih =>
    intro h c hc
    simp only [strOf, List.mem_cons, List.mem_append, List.not_mem_nil, or_false] at hc
    rcases hc with (rfl | hc) | rfl
    · rfl
    · exact ih h c hc
    · rfl
  | negHead t ih =>
    intro h c hc
    obtain ⟨hwt, -⟩ := WF_negHead_iff.mp h
    simp only [strOf, List.mem_cons] at hc
    rcases hc with rfl | hc
    · rfl
    · exact ih hwt c hc
  | bin c0 l r ihl ihr =>
    intro h c hc
    obtain ⟨hwl, hwr, -⟩ := WF_bin_iff.mp h
    have hcop := WF_bin_op h
    simp only [strOf, List.mem_append, List.mem_cons] at hc
    rcases hc with hc | (rfl | hc)
    · exact ihl hwl c hc
    · simp only [opChars, List.mem_cons, List.not_mem_nil, or_false] at hcop
      rcases hcop with rfl | rfl | rfl | rfl <;> rfl
    · exact ihr hwr c hc

/-- The rendering of a well-formed expression ends in a digit or `)`. -/
theorem strOf_rev_last (a : Ast) : WF a = true →
    ∃ c t, (strOf a).reverse = c :: t ∧ (c.isDigit = true ∨ c = ')') := by
  induction a with
  | lit ds fs =>
    intro h
    obtain ⟨⟨hne, hdig⟩, hfr⟩ := WF_lit_iff.mp h
    cases fs with
    | none =>
      rcases hrev : ds.reverse with - | ⟨c, t⟩
      · exact absurd (by simpa using congrArg List.reverse hrev) hne
      · refine ⟨c, t, ?_, Or.inl (hdig c ?_)⟩
        · simp [strOf, hrev]
        · rw [← List.mem_reverse, hrev]
          exact List.mem_cons_self c t
    | some fr =>
      obtain ⟨hfne, hfdig⟩ := hfr fr rfl
      rcases hrev : fr.reverse with - | ⟨c, t⟩
      · exact absurd (by simpa using congrArg List.reverse hrev) hfne
      · refine ⟨c, t ++ '.' :: ds.reverse, ?_, Or.inl (hfdig c ?_)⟩
        · simp [strOf, List.reverse_append, hrev]
        · rw [← List.mem_reverse, hrev]
          exact List.mem_cons_self c t
  | paren e ih =>
    intro h
    exact ⟨')', (strOf e).reverse ++ ['('], by simp [strOf], Or.inr rfl⟩
  | negHead t ih =>
    intro h
    obtain ⟨hwt, -⟩ := WF_negHead_iff.mp h
    obtain ⟨c, tt, hrev, hc⟩ := ih hwt
    exact ⟨c, tt ++ ['-'], by simp [strOf, hrev], hc⟩
  | bin c0 l r ihl ihr =>
    intro h
    obtain ⟨hwl, hwr, -⟩ := WF_bin_iff.mp h
    obtain ⟨c, tt, hrev, hc⟩ := ihr hwr
    refine ⟨c, tt ++ c0 :: (strOf l).reverse, ?_, hc⟩
    simp [strOf, List.reverse_append, hrev]

theorem digit_or_rparen_not_mem {c : Char} (hc : c.isDigit = true ∨ c = ')') :
    c ∉ opChars := by
  rcases hc with hc | rfl
  · intro hm
    simp only [opChars, List.mem_cons, List.not_mem_nil, or_false] at hm
    rcases hm with rfl | rfl | rfl | rfl <;> simp at hc
  · intro hm
    simp [opChars] at hm

theorem digit_or_rparen_not_op {c : Char} (hc : c.isDigit = true ∨ c = ')') :
    opChars.contains c = false := by
  rw [show opChars.contains c = opChars.elem c from rfl, List.elem_eq_mem,
    decide_eq_false (digit_or_rparen_not_mem hc)]

/-- The sanitizer leaves the rendering of a well-formed expression
unchanged: it contains no whitespace and does not end in an operator. -/
theorem sanitize_strOf (a : Ast) (h : WF a = true) :
    stripTrailingOperators (String.mk (strOf a)) = String.mk (strOf a) := by
  have hnws := strOf_not_ws a h
  have hrevws : ∀ c ∈ (strOf a).reverse, c.isWhitespace = false := by
    intro c hc
    exact hnws c (List.mem_reverse.mp hc)
  have hstrip : pyStrip (strOf a) = strOf a := by
    rw [pyStrip, dropWhile_head_neg hnws, dropWhile_head_neg hrevws,
      List.reverse_reverse]
  obtain ⟨c, t, hrev, hc⟩ := strOf_rev_last a h
  rw [stripTrailingOperators, show (String.mk (strOf a)).data = strOf a from rfl,
    hstrip, rstripChars, hrev,
    List.dropWhile_cons_of_neg (by simp [digit_or_rparen_not_mem hc]), ← hrev,
    List.reverse_reverse]

/-- C1, general part: on the rendering of any well-formed expression with a
defined (division-by-zero-free) value, `compute` returns exactly the
mathematically correct value. -/
theorem compute_strOf (a : Ast) (v : ℚ) (h : WF a = true) (hv : val a = some v) :
    compute (String.mk (strOf a)) = .ok v := by
  rw [compute, sanitize_strOf a h,
    show tokenize (String.mk (strOf a)) = tokenizeL (strOf a) from rfl,
    tokenizeL_strOf a h, to_rpn_toksOf a h, evaluate_rpn,
    exec_rpnOf a v [] h hv]

/-! ### Reachability in the RPN evaluator (for the division-by-zero claim) -/

theorem execStack_sym (a b : ℚ) (r : List ℚ) (c : Char) (ts : List Tok) :
    execStack (b :: a :: r) (Tok.sym c :: ts) =
      if c = '/' ∧ b = 0 then .error .divZero
      else execStack (symStep a b r c) ts := by
  by_cases h1 : c = '+'
  · subst h1; simp [execStack, symStep]
  by_cases h2 : c = '-'
  · subst h2; simp [execStack, symStep]
  by_cases h3 : c = '*'
  · subst h3; simp [execStack, symStep]
  by_cases h4 : c = '/'
  · subst h4
    by_cases hb : b = 0 <;> simp [execStack, symStep, hb]
  · simp [execStack, symStep, h1, h2, h3, h4]

/-- The run errors with the division-by-zero error exactly when it reaches
a `/` token whose popped divisor (the stack top) is `0`. -/
theorem execStack_divZero_iff : ∀ (ts : List Tok) (st : List ℚ),
    execStack st ts = .error .divZero ↔
      ∃ a r ts', Reaches st ts (0 :: a :: r) (Tok.sym '/' :: ts') := by
  intro ts
  induction ts with
  | nil =>
    intro st
    constructor
    · intro h
      simp [execStack] at h
    · rintro ⟨a, r, ts', hre⟩
      cases hre
  | cons t ts ih =>
    intro st
    constructor
    · intro h
      match t with
      | Tok.num q =>
        rw [show execStack st (Tok.num q :: ts) = execStack (q :: st) ts from rfl] at h
        obtain ⟨a, r, ts', hre⟩ := (ih (q :: st)).mp h
        exact ⟨a, r, ts', Reaches.num q hre⟩
      | Tok.sym c =>
        match st with
        | [] => simp [execStack] at h
        | [x] => simp [execStack] at h
        | b :: a' :: r' =>
          rw [execStack_sym] at h
          by_cases hc : c = '/' ∧ b = 0
          · obtain ⟨rfl, rfl⟩ := hc
            exact ⟨a', r', ts, Reaches.refl _ _⟩
          · rw [if_neg hc] at h
            obtain ⟨a, r, ts', hre⟩ := (ih _).mp h
            exact ⟨a, r, ts', Reaches.sym c hc hre⟩
    · rintro ⟨a, r, ts', hre⟩
      cases hre with
      | refl => rw [execStack_sym, if_pos ⟨rfl, rfl⟩]
      | num q hre' =>
        rw [show execStack _ (Tok.num q :: ts) = execStack (q :: _) ts from rfl]
        exact (ih _).mpr ⟨a, r, ts', hre'⟩
      | sym c hc hre' =>
        rw [execStack_sym, if_neg hc]
        exact (ih _).mpr ⟨a, r, ts', hre'⟩

theorem evaluate_rpn_divZero_iff (ts : List Tok) :
    evaluate_rpn ts = .error .divZero ↔ execStack [] ts = .error .divZero := by
  rw [evaluate_rpn]
  rcases hex : execStack [] ts with e | st
  · cases e <;> simp
  · rcases st with - | ⟨v, - | ⟨w, rest⟩⟩ <;> simp

/-! ### Digit-count bounds (for the formatter's width claim) -/

theorem natDigitsAux_len_le : ∀ (f n k : ℕ), n < 10 ^ k → n ≤ f →
    (natDigitsAux f n).length ≤ k := by
  intro f
  induction f with
  | zero => intro n k _ _; simp [natDigitsAux]
  | succ f ih =>
    intro n k hk hf
    simp only [natDigitsAux]
    by_cases hn : n = 0
    · rw [if_pos hn]; simp
    · rw [if_neg hn]
      simp only [List.length_cons]
      have hk1 : 1 ≤ k := by
        by_contra hk0
        have : k = 0 := by omega
        subst this
        simp at hk
        omega
      have hkk : (10 : ℕ) ^ k = 10 ^ (k - 1) * 10 := by
        rw [← pow_succ]
        congr 1
        omega
      have hdiv : n / 10 < 10 ^ (k - 1) := by
        rw [Nat.div_lt_iff_lt_mul (by norm_num)]
        omega
      have hle : n / 10 ≤ f := by
        have := Nat.div_lt_self (by omega : 0 < n) (by norm_num : (1:ℕ) < 10)
        omega
      have := ih (n / 10) (k - 1) hdiv hle
      omega

theorem natDigits_len_le {n k : ℕ} (hk : n < 10 ^ k) (h1 : 1 ≤ k) :
    (natDigits n).length ≤ k := by
  rw [natDigits]
  by_cases hn : n = 0
  · rw [if_pos hn]
    simpa using h1
  · rw [if_neg hn, List.length_reverse]
    exact natDigitsAux_len_le n n k hk le_rfl

theorem natDigitsAux_len_bounds : ∀ (f n : ℕ), 1 ≤ n → n ≤ f →
    10 ^ ((natDigitsAux f n).length - 1) ≤ n ∧ n < 10 ^ (natDigitsAux f n).length := by
  intro f
  induction f with
  | zero => intro n h1 h2; omega
  | succ f ih =>
    intro n h1 h2
    simp only [natDigitsAux]
    rw [if_neg (by omega)]
    simp only [List.length_cons]
    by_cases h10 : n / 10 = 0
    · have hlt : n < 10 := (Nat.div_eq_zero_iff (by norm_num)).mp h10
      have haux : natDigitsAux f (n / 10) = [] := by
        rw [h10]
        cases f <;> simp [natDigitsAux]
      rw [haux]
      simp only [List.length_nil]
      constructor
      · simpa using h1
      · simpa using hlt
    · have h101 : 1 ≤ n / 10 := by omega
      have hle : n / 10 ≤ f := by
        have := Nat.div_lt_self (by omega : 0 < n) (by norm_num : (1:ℕ) < 10)
        omega
      obtain ⟨hlo, hhi⟩ := ih (n / 10) h101 hle
      have hL1 : 1 ≤ (natDigitsAux f (n / 10)).length := by
        by_contra h0
        have : (natDigitsAux f (n / 10)).length = 0 := by omega
        rw [this] at hhi
        simp at hhi
        omega
      set L := (natDigitsAux f (n / 10)).length with hL
      have hdm : 10 * (n / 10) + n % 10 = n := Nat.div_add_mod n 10
      have hmod : n % 10 < 10 := Nat.mod_lt n (by norm_num)
      constructor
      · have h2' : (10 : ℕ) ^ L = 10 ^ (L - 1) * 10 := by
          rw [← pow_succ]
          congr 1
          omega
        have h1' : 10 ^ (L - 1) * 10 ≤ (n / 10) * 10 := Nat.mul_le_mul_right _ hlo
        have h3' : n / 10 * 10 ≤ n := by omega
        simp only [Nat.add_sub_cancel]
        omega
      · have h2' : (10 : ℕ) ^ (L + 1) = 10 ^ L * 10 := by rw [pow_succ]
        have h4' : (n / 10 + 1) * 10 ≤ 10 ^ L * 10 := Nat.mul_le_mul_right _ hhi
        omega

theorem natDigits_bounds {n : ℕ} (h1 : 1 ≤ n) :
    10 ^ ((natDigits n).length - 1) ≤ n ∧ n < 10 ^ (natDigits n).length := by
  rw [natDigits, if_neg (by omega), List.length_reverse]
  exact natDigitsAux_len_bounds n n h1 le_rfl

theorem rhe_bounds (x : ℚ) : ⌊x⌋ ≤ rhe x ∧ rhe x ≤ ⌊x⌋ + 1 := by
  rw [rhe]
  split_ifs <;> omega

theorem padZeros_length (k : ℕ) (ds : List Char) :
    (padZeros k ds).length = max k ds.length := by
  simp only [padZeros, List.length_append, List.length_replicate]
  omega

/-- Lower/upper bounds for the decimal exponent used by the scientific
rendering, for magnitudes at least 1. -/
theorem decExp_bounds {x : ℚ} (hx : 1 ≤ x) :
    (10 : ℚ) ^ decExp x ≤ x ∧ x < (10 : ℚ) ^ (decExp x + 1) := by
  have hfl : (1 : ℤ) ≤ ⌊x⌋ := Int.le_floor.mpr (by exact_mod_cast hx)
  set m := ⌊x⌋.toNat with hm
  have hm1 : 1 ≤ m := by omega
  have hcast : (m : ℚ) = (⌊x⌋ : ℚ) := by
    rw [hm]
    exact_mod_cast congrArg (fun z : ℤ => (z : ℚ)) (Int.toNat_of_nonneg (by omega))
  obtain ⟨hlo, hhi⟩ := natDigits_bounds hm1
  have hdec : decExp x = (natDigits m).length - 1 := rfl
  have hlen1 : 1 ≤ (natDigits m).length := by
    by_contra h0
    have : (natDigits m).length = 0 := by omega
    rw [this] at hhi
    simp at hhi
    omega
  constructor
  · have h1q : ((10 : ℕ) ^ ((natDigits m).length - 1) : ℚ) ≤ (m : ℚ) := by
      exact_mod_cast hlo
    have h2q : (m : ℚ) ≤ x := by
      rw [hcast]
      exact Int.floor_le x
    have : (10 : ℚ) ^ decExp x = ((10 : ℕ) ^ ((natDigits m).length - 1) : ℚ) := by
      rw [hdec]
      push_cast
      ring
    linarith [this ▸ le_trans h1q h2q]
  · have hxm : x < (m : ℚ) + 1 := by
      rw [hcast]
      exact Int.lt_floor_add_one x
    have h1q : (m : ℚ) + 1 ≤ ((10 : ℕ) ^ (natDigits m).length : ℚ) := by
      exact_mod_cast hhi
    have hexp : decExp x + 1 = (natDigits m).length := by
      rw [hdec]
      omega
    have : (10 : ℚ) ^ (decExp x + 1) = ((10 : ℕ) ^ (natDigits m).length : ℚ) := by
      rw [hexp]
      push_cast
      ring
    linarith

/-- Bounds on the scientific mantissa/exponent pair, for `|v| > 1e15` within
the float64 range of magnitudes. -/
theorem sciParts_bounds {v : ℚ} (hv : (10 : ℚ) ^ 15 < |v|) (hmax : |v| < (10 : ℚ) ^ 309) :
    (100 ≤ (sciParts v).1 ∧ (sciParts v).1 ≤ 1000) ∧ (sciParts v).2 ≤ 309 := by
  have hx1 : (1 : ℚ) ≤ |v| := le_trans (by norm_num) hv.le
  obtain ⟨hlo, hhi⟩ := decExp_bounds hx1
  set e := decExp |v| with he
  have hpow : (0 : ℚ) < 10 ^ e := by positivity
  have hy1 : (100 : ℚ) ≤ |v| / 10 ^ e * 100 := by
    have h1 : (1 : ℚ) ≤ |v| / 10 ^ e := (le_div_iff hpow).mpr (by simpa using hlo)
    linarith
  have hy2 : |v| / 10 ^ e * 100 < 1000 := by
    rw [pow_succ] at hhi
    have h1 : |v| / 10 ^ e < 10 := (div_lt_iff hpow).mpr (by linarith)
    linarith
  obtain ⟨hr1, hr2⟩ := rhe_bounds (|v| / 10 ^ e * 100)
  have hfl1 : (100 : ℤ) ≤ ⌊|v| / 10 ^ e * 100⌋ := Int.le_floor.mpr (by exact_mod_cast hy1)
  have hfl2 : ⌊|v| / 10 ^ e * 100⌋ < 1000 := Int.floor_lt.mpr (by exact_mod_cast hy2)
  have he308 : e ≤ 308 := by
    by_contra hbig
    push_neg at hbig
    have h309 : (10 : ℚ) ^ 309 ≤ 10 ^ e := pow_le_pow_right (by norm_num) (by omega)
    linarith
  rw [sciParts]
  simp only [← he]
  by_cases hcarry : rhe (|v| / 10 ^ e * 100) = 1000
  · rw [if_pos hcarry]
    refine ⟨⟨by norm_num, by norm_num⟩, by omega⟩
  · rw [if_neg hcarry]
    exact ⟨⟨by omega, by omega⟩, by omega⟩

/-- The scientific rendering stays within the 11-character display budget
for every float64-range magnitude above the threshold. -/
theorem sciFormat2_len {v : ℚ} (hv : (10 : ℚ) ^ 15 < |v|) (hmax : |v| < (10 : ℚ) ^ 309) :
    (sciFormat2 v).length ≤ 11 := by
  have hv0 : v ≠ 0 := by
    intro h
    rw [h] at hv
    simp at hv
    have : (0 : ℚ) < 10 ^ 15 := by positivity
    linarith
  obtain ⟨⟨hm1, hm2⟩, hexp⟩ := sciParts_bounds hv hmax
  have hna1 : (sciParts v).1.natAbs ≤ 1000 := by omega
  have hd1 : (natDigits ((sciParts v).1.natAbs / 100)).length ≤ 2 := by
    apply natDigits_len_le _ (by norm_num)
    have : (sciParts v).1.natAbs / 100 ≤ 10 := by omega
    omega
  have hd2 : (natDigits ((sciParts v).1.natAbs % 100)).length ≤ 2 := by
    apply natDigits_len_le _ (by norm_num)
    have : (sciParts v).1.natAbs % 100 < 100 := Nat.mod_lt _ (by norm_num)
    omega
  have hd3 : (natDigits (sciParts v).2).length ≤ 3 := by
    apply natDigits_len_le _ (by norm_num)
    omega
  rw [sciFormat2, if_neg hv0]
  simp only [List.length_append, List.length_cons, padZeros_length]
  have hsign : (if v < 0 then ['-'] else []).length ≤ 1 := by
    split_ifs <;> simp
  omega

/-! ### Lemmas for the sanitizer idempotence claim -/

theorem dropWhile_head_prop (p : Char → Bool) : ∀ (l : List Char) (c : Char),
    (l.dropWhile p).head? = some c → p c = false := by
  intro l
  induction l with
  | nil => intro c hc; simp at hc
  | cons d t ih =>
    intro c hc
    by_cases hp : p d
    · rw [List.dropWhile_cons_of_pos hp] at hc
      exact ih c hc
    · rw [List.dropWhile_cons_of_neg hp] at hc
      simp only [List.head?_cons, Option.some.injEq] at hc
      subst hc
      simpa using hp

theorem dropWhile_idem (p : Char → Bool) (l : List Char) :
    (l.dropWhile p).dropWhile p = l.dropWhile p := by
  rcases h : l.dropWhile p with - | ⟨c, r⟩
  · rfl
  · rw [List.dropWhile_cons_of_neg]
    simp [dropWhile_head_prop p l c (by rw [h]; rfl)]

theorem mem_of_mem_dropWhile {p : Char → Bool} {l : List Char} {c : Char}
    (h : c ∈ l.dropWhile p) : c ∈ l := by
  have hsplit := List.takeWhile_append_dropWhile (p := p) (l := l)
  rw [← hsplit]
  exact List.mem_append_right _ h

/-! ## The claims -/

/-- C1: For every well-formed expression string with balanced parentheses
and no division by zero, `compute` returns the mathematically correct value
of the expression under standard operator precedence (`*` and `/` bind
above `+` and `-`) and left-associativity; in particular
`compute "2+3*4" = 14`, `compute "(2+3)*4" = 20`, and
`compute "-5+2" = -3`.  Well-formed expressions are rendered from the
grammar `Ast` (which encodes the standard precedence and associativity) and
their mathematical value is `val`; numbers are exact rationals in place of
float64. -/
theorem C1_compute_correct :
    (∀ (a : Ast) (v : ℚ), WF a = true → val a = some v →
        compute (String.mk (strOf a)) = .ok v)
    ∧ compute "2+3*4" = .ok 14
    ∧ compute "(2+3)*4" = .ok 20
    ∧ compute "-5+2" = .ok (-3) :=
  ⟨compute_strOf, by with_unfolding_all decide, by with_unfolding_all decide,
    by with_unfolding_all decide⟩

/-- Witness for C1 at the concrete expression `2+3*4`. -/
theorem C1_compute_correct_witness :
    WF (Ast.bin '+' (Ast.lit ['2'] none)
        (Ast.bin '*' (Ast.lit ['3'] none) (Ast.lit ['4'] none))) = true
    ∧ val (Ast.bin '+' (Ast.lit ['2'] none)
        (Ast.bin '*' (Ast.lit ['3'] none) (Ast.lit ['4'] none))) = some 14
    ∧ compute (String.mk (strOf (Ast.bin '+' (Ast.lit ['2'] none)
        (Ast.bin '*' (Ast.lit ['3'] none) (Ast.lit ['4'] none))))) = .ok 14 :=
  ⟨by with_unfolding_all decide, by with_unfolding_all decide,
    C1_compute_correct.1 _ 14 (by with_unfolding_all decide)
      (by with_unfolding_all decide)⟩

/-- C2 counterexample: the claim says unmatched `(` are discarded and
`compute "(2+3"` succeeds, but the final pop loop of `_to_rpn` pushes the
unmatched `(` into the RPN output and the evaluator then fails with the
arity error. -/
theorem C2_unmatched_paren_cex :
    compute "(2+3" = .error .arity
    ∧ to_rpn (tokenize "(2+3") = [Tok.num 2, Tok.num 3, Tok.sym '+', Tok.sym '('] := by
  constructor <;> with_unfolding_all decide

/-- C2 amended: after all tokens are consumed the remaining operator-stack
entries — *including* any unmatched `(` — are popped to the output; a `(`
token reaching the evaluator acts as an unrecognized operator: with fewer
than two stack values it raises the arity error, otherwise it pops two
values and pushes nothing.  Consequently an input whose only imbalance is
an unclosed `(` fails rather than evaluating: `compute "(2+3"` raises the
arity `ValueError`. -/
theorem C2_unmatched_paren_amended :
    (∀ ts : List Tok,
        to_rpn ts = (ts.foldl rpnStep ([], [], none)).1 ++
          ((ts.foldl rpnStep ([], [], none)).2.1).map Tok.sym)
    ∧ (∀ (b a : ℚ) (r : List ℚ) (ts : List Tok),
        execStack (b :: a :: r) (Tok.sym '(' :: ts) = execStack r ts)
    ∧ (∀ (st : List ℚ) (ts : List Tok), st.length < 2 →
        execStack st (Tok.sym '(' :: ts) = .error .arity)
    ∧ compute "(2+3" = .error .arity := by
  refine ⟨fun ts => rfl, fun b a r ts => rfl, ?_, by with_unfolding_all decide⟩
  intro st ts h
  match st with
  | [] => rfl
  | [x] => rfl
  | x :: y :: r => simp only [List.length_cons] at h; omega

/-- Witness for C2 (amended), discharging the arity hypothesis at a
one-element stack. -/
theorem C2_unmatched_paren_amended_witness :
    ([(1 : ℚ)].length < 2) ∧ execStack [(1 : ℚ)] [Tok.sym '('] = .error .arity :=
  ⟨by norm_num, C2_unmatched_paren_amended.2.2.1 [(1 : ℚ)] [] (by norm_num)⟩

/-- C3 counterexample: `resolve_percentage` *can* fail: the method has no
`try`/`except`, so when the trailing-percentage pattern matches but
evaluating the prefix raises (here `"5/0"`), the exception propagates
instead of the input being returned unchanged. -/
theorem C3_resolve_percentage_cex :
    resolve_percentage "5/0+10%" = .error .divZero := by
  with_unfolding_all decide

/-- C3 amended: `resolve_percentage` returns normally on pattern non-match
(input unchanged) and on match with a successfully evaluated prefix
(rewritten string); but when the pattern matches and `compute` on the
prefix fails, the failure propagates out of `resolve_percentage`. -/
theorem C3_resolve_percentage_amended :
    (∀ s : String, percMatch s.data = none → resolve_percentage s = .ok s)
    ∧ (∀ (s : String) (pre : List Char) (c : Char) (ds : List Char) (e : CalcErr),
        percMatch s.data = some (pre, c, ds) →
        compute (String.mk pre) = .error e →
        resolve_percentage s = .error e)
    ∧ (∀ (s : String) (pre : List Char) (c : Char) (ds : List Char) (base : ℚ),
        percMatch s.data = some (pre, c, ds) →
        compute (String.mk pre) = .ok base →
        resolve_percentage s =
          .ok (String.mk (pre ++ c :: pyFloatRepr (base * (parseDec ds / 100))))) := by
  refine ⟨?_, ?_, ?_⟩
  · intro s hm
    simp only [resolve_percentage, hm]
  · intro s pre c ds e hm hc
    simp only [resolve_percentage, hm, hc]
  · intro s pre c ds base hm hc
    simp only [resolve_percentage, hm, hc]

set_option maxRecDepth 40000 in
/-- Witness for C3 (amended) at the three concrete behaviours. -/
theorem C3_resolve_percentage_amended_witness :
    resolve_percentage "abc" = .ok "abc"
    ∧ resolve_percentage "(+10%" = .error .arity
    ∧ resolve_percentage "200+10%" =
        .ok (String.mk ("200".data ++ '+' :: pyFloatRepr (200 * (parseDec "10".data / 100)))) :=
  ⟨C3_resolve_percentage_amended.1 "abc" (by with_unfolding_all decide),
    C3_resolve_percentage_amended.2.1 "(+10%" "(".data '+' "10".data .arity
      (by with_unfolding_all decide) (by with_unfolding_all decide),
    C3_resolve_percentage_amended.2.2 "200+10%" "200".data '+' "10".data 200
      (by with_unfolding_all decide) (by with_unfolding_all decide)⟩

set_option maxRecDepth 40000 in
/-- C4: when the input matches `<prefix><operator><number>%` at the end of
the string and the prefix evaluates to `base`, `resolve_percentage` returns
`prefix + operator + repr (base * (number / 100))` with the value rendered
as a raw float (not the display format); in particular
`resolve_percentage "200+10%" = "200+20.0"` and computing that yields
`220`. -/
theorem C4_percentage_rewrite :
    (∀ (s : String) (pre : List Char) (c : Char) (ds : List Char) (base : ℚ),
        percMatch s.data = some (pre, c, ds) →
        compute (String.mk pre) = .ok base →
        resolve_percentage s =
          .ok (String.mk (pre ++ c :: pyFloatRepr (base * (parseDec ds / 100)))))
    ∧ resolve_percentage "200+10%" = .ok "200+20.0"
    ∧ compute "200+20.0" = .ok 220 := by
  refine ⟨?_, by with_unfolding_all decide, by with_unfolding_all decide⟩
  intro s pre c ds base hm hc
  simp only [resolve_percentage, hm, hc]

set_option maxRecDepth 40000 in
/-- Witness for C4 at `"200+10%"`. -/
theorem C4_percentage_rewrite_witness :
    resolve_percentage "200+10%" =
      .ok (String.mk ("200".data ++ '+' :: pyFloatRepr (200 * (parseDec "10".data / 100))))
    ∧ String.mk ("200".data ++ '+' :: pyFloatRepr (200 * (parseDec "10".data / 100))) =
        "200+20.0" :=
  ⟨C4_percentage_rewrite.1 "200+10%" "200".data '+' "10".data 200
      (by with_unfolding_all decide) (by with_unfolding_all decide),
    by with_unfolding_all decide⟩

/-- C5: the postfix evaluator fails with the division-by-zero error if and
only if the run reaches a `/` token whose popped divisor (the stack top) is
exactly `0`; in particular `compute "5/0"` raises `ZeroDivisionError`. -/
theorem C5_div_zero_iff :
    (∀ ts : List Tok,
        evaluate_rpn ts = .error .divZero ↔
          ∃ a r ts', Reaches [] ts (0 :: a :: r) (Tok.sym '/' :: ts'))
    ∧ compute "5/0" = .error .divZero :=
  ⟨fun ts => (evaluate_rpn_divZero_iff ts).trans (execStack_divZero_iff ts []),
    by with_unfolding_all decide⟩

/-- C6: the evaluator raises the arity error when an operator arrives with
fewer than two stacked values; when the loop finishes, it raises the
malformed-expression error unless the stack holds exactly one value, in
which case it returns that value; the empty expression is malformed. -/
theorem C6_evaluator_errors :
    (∀ (st : List ℚ) (c : Char) (ts : List Tok), st.length < 2 →
        execStack st (Tok.sym c :: ts) = .error .arity)
    ∧ (∀ (ts : List Tok) (st : List ℚ), execStack [] ts = .ok st →
        (st.length ≠ 1 → evaluate_rpn ts = .error .malformed)
        ∧ (∀ v : ℚ, st = [v] → evaluate_rpn ts = .ok v))
    ∧ evaluate_rpn [] = .error .malformed
    ∧ compute "" = .error .malformed := by
  refine ⟨?_, ?_, rfl, by with_unfolding_all decide⟩
  · intro st c ts h
    match st with
    | [] => rfl
    | [x] => rfl
    | x :: y :: r => simp only [List.length_cons] at h; omega
  · intro ts st hex
    constructor
    · intro hne
      rw [evaluate_rpn, hex]
      rcases st with - | ⟨v, - | ⟨w, r⟩⟩
      · rfl
      · exact absurd rfl hne
      · rfl
    · intro v hv
      subst hv
      rw [evaluate_rpn, hex]

/-- Witness for C6: arity error on a one-value stack, malformed on two
leftover values, success on a singleton. -/
theorem C6_evaluator_errors_witness :
    (([] : List ℚ).length < 2)
    ∧ execStack ([] : List ℚ) [Tok.sym '+'] = .error .arity
    ∧ execStack [] [Tok.num 3, Tok.num 4] = .ok [4, 3]
    ∧ evaluate_rpn [Tok.num 3, Tok.num 4] = .error .malformed
    ∧ evaluate_rpn [Tok.num 7] = .ok 7 := by
  refine ⟨by norm_num, C6_evaluator_errors.1 [] '+' [] (by norm_num),
    by with_unfolding_all decide, ?_, ?_⟩
  · exact (C6_evaluator_errors.2.1 [Tok.num 3, Tok.num 4] [4, 3]
      (by with_unfolding_all decide)).1 (by norm_num)
  · exact (C6_evaluator_errors.2.1 [Tok.num 7] [7]
      (by with_unfolding_all decide)).2 7 rfl

/-- C7 counterexample: the sanitizer is *not* idempotent on all strings:
on `"5+ -"` the first pass strips only the `-` (the interior space shields
the `+`) but leaves a trailing space, so a second pass strips further
(`"5+ "` versus `"5"`).  The compute-level identity fails too, one level
deeper (`compute` re-sanitizes its own input once): on `"5+ - -"`
sanitizing once then computing raises the arity error while sanitizing
twice then computing yields `5`. -/
theorem C7_sanitize_cex :
    stripTrailingOperators (stripTrailingOperators "5+ -") ≠ stripTrailingOperators "5+ -"
    ∧ stripTrailingOperators "5+ -" = "5+ "
    ∧ stripTrailingOperators (stripTrailingOperators "5+ -") = "5"
    ∧ compute (stripTrailingOperators (stripTrailingOperators "5+ - -")) ≠
        compute (stripTrailingOperators "5+ - -")
    ∧ compute (stripTrailingOperators "5+ - -") = .error .arity
    ∧ compute (stripTrailingOperators (stripTrailingOperators "5+ - -")) = .ok 5 := by
  refine ⟨?_, ?_, ?_, ?_, ?_, ?_⟩ <;> with_unfolding_all decide

/-- C7 amended: the sanitizer trims surrounding whitespace and then strips
the maximal trailing run of `{+,-,*,/}` characters (`"5+-"` sanitizes to
`"5"`); it is idempotent — and hence `compute ∘ sanitize ∘ sanitize` agrees
with `compute ∘ sanitize` — on every string containing no whitespace
characters (idempotence fails in general, see the counterexample). -/
theorem C7_sanitize_amended :
    stripTrailingOperators "5+-" = "5"
    ∧ (∀ s : String, s.data.all (fun c => !c.isWhitespace) = true →
        stripTrailingOperators (stripTrailingOperators s) = stripTrailingOperators s
        ∧ compute (stripTrailingOperators (stripTrailingOperators s)) =
            compute (stripTrailingOperators s)) := by
  refine ⟨by with_unfolding_all decide, ?_⟩
  intro s hws
  have hmem : ∀ c ∈ s.data, c.isWhitespace = false := by
    intro c hc
    have := List.all_eq_true.mp hws c hc
    simpa using this
  have hstrip : pyStrip s.data = s.data := by
    rw [pyStrip, dropWhile_head_neg hmem,
      dropWhile_head_neg (fun c hc => hmem c (List.mem_reverse.mp hc)),
      List.reverse_reverse]
  set p : Char → Bool := fun c => opChars.contains c with hp
  have ht : (stripTrailingOperators s).data = (s.data.reverse.dropWhile p).reverse := by
    rw [stripTrailingOperators, hstrip]
    rfl
  have htmem : ∀ c ∈ (stripTrailingOperators s).data, c.isWhitespace = false := by
    intro c hc
    rw [ht] at hc
    exact hmem c (List.mem_reverse.mp (mem_of_mem_dropWhile (List.mem_reverse.mp hc)))
  have hstrip2 : pyStrip (stripTrailingOperators s).data = (stripTrailingOperators s).data := by
    rw [pyStrip, dropWhile_head_neg htmem,
      dropWhile_head_neg (fun c hc => htmem c (List.mem_reverse.mp hc)),
      List.reverse_reverse]
  have hfix : stripTrailingOperators (stripTrailingOperators s) = stripTrailingOperators s := by
    have h1 : stripTrailingOperators (stripTrailingOperators s) =
        String.mk (((stripTrailingOperators s).data.reverse.dropWhile p).reverse) := by
      rw [stripTrailingOperators, hstrip2]
      rfl
    rw [h1, ht, List.reverse_reverse, dropWhile_idem, ← ht]
  exact ⟨hfix, by rw [hfix]⟩

/-- Witness for C7 (amended) on the whitespace-free string `"5+-"`. -/
theorem C7_sanitize_amended_witness :
    "5+-".data.all (fun c => !c.isWhitespace) = true
    ∧ stripTrailingOperators (stripTrailingOperators "5+-") = stripTrailingOperators "5+-" :=
  ⟨by with_unfolding_all decide,
    (C7_sanitize_amended.2 "5+-" (by with_unfolding_all decide)).1⟩

/-- C8: values with magnitude above `1e15` are rendered in scientific
notation with two fractional digits (`format_result (2e16) = "2.00e+16"`,
matching the `d.dde+NN` pattern); all other values are rounded to six
decimals, rendered fixed-point, stripped of trailing zeros and a
superfluous trailing point, and truncated to the 11-character budget, so
the fixed branch never exceeds 11 characters; for every float64-range
magnitude (`|v| < 1e309`) the returned display string never exceeds 11
characters; `format_result 1234.5 = "1234.5"` and
`format_result (0.1 + 0.2) = "0.3"`. -/
theorem C8_format_result :
    (∀ v : ℚ, (10 : ℚ) ^ 15 < |v| → format_result v = String.mk (sciFormat2 v))
    ∧ (∀ v : ℚ, ¬ (10 : ℚ) ^ 15 < |v| → (format_result v).length ≤ 11)
    ∧ (∀ v : ℚ, |v| < (10 : ℚ) ^ 309 → (format_result v).length ≤ 11)
    ∧ format_result (1234 + 1 / 2) = "1234.5"
    ∧ format_result (1 / 10 + 2 / 10) = "0.3"
    ∧ format_result (2 * 10 ^ 16) = "2.00e+16" := by
  have hfix : ∀ v : ℚ, ¬ (10 : ℚ) ^ 15 < |v| → (format_result v).length ≤ 11 := by
    intro v h
    simp only [format_result]
    rw [if_neg h]
    set res := rstripChar '.' (rstripChar '0' (fixed6 (roundTo6 v))) with hres
    by_cases hlen : 11 < res.length
    · rw [if_pos hlen]
      show (res.take 11).length ≤ 11
      simp [List.length_take]
    · rw [if_neg hlen]
      show res.length ≤ 11
      omega
  refine ⟨?_, hfix, ?_, by with_unfolding_all decide, by with_unfolding_all decide,
    by with_unfolding_all decide⟩
  · intro v h
    simp only [format_result]
    rw [if_pos h]
  · intro v hmax
    by_cases hb : (10 : ℚ) ^ 15 < |v|
    · simp only [format_result]
      rw [if_pos hb]
      show (sciFormat2 v).length ≤ 11
      exact sciFormat2_len hb hmax
    · exact hfix v hb

set_option maxRecDepth 40000 in
/-- Witness for C8, discharging the branch hypotheses at `1234.5` and
`2e16`. -/
theorem C8_format_result_witness :
    (¬ (10 : ℚ) ^ 15 < |(1234 + 1 / 2 : ℚ)|)
    ∧ (format_result (1234 + 1 / 2)).length ≤ 11
    ∧ |(2 * 10 ^ 16 : ℚ)| < (10 : ℚ) ^ 309
    ∧ (format_result (2 * 10 ^ 16)).length ≤ 11
    ∧ (10 : ℚ) ^ 15 < |(2 * 10 ^ 16 : ℚ)|
    ∧ format_result (2 * 10 ^ 16) = String.mk (sciFormat2 (2 * 10 ^ 16)) := by
  refine ⟨by with_unfolding_all decide, C8_format_result.2.1 _ (by with_unfolding_all decide),
    by with_unfolding_all decide, C8_format_result.2.2.1 _ (by with_unfolding_all decide),
    by with_unfolding_all decide, C8_format_result.1 _ (by with_unfolding_all decide)⟩

/-- C9: when a `-` token directly follows another operator token, the
converter first appends the literal `0.0` to the output, then pops pending
operators of greater-or-equal precedence and pushes the `-`; consequently
`compute "5*-3"` returns `(5*0)-3 = -3` rather than `5*(-3) = -15`. -/
theorem C9_unary_minus :
    (∀ (out : List Tok) (ops : List Char) (c : Char), c ∈ opChars →
        rpnStep (out, ops, some (Tok.sym c)) (Tok.sym '-') =
          (out ++ Tok.num 0 :: (popGE 1 ops).1.map Tok.sym,
           '-' :: (popGE 1 ops).2, some (Tok.sym '-')))
    ∧ compute "5*-3" = .ok (-3)
    ∧ compute "5*-3" ≠ .ok (-15) := by
  refine ⟨?_, by with_unfolding_all decide, by with_unfolding_all decide⟩
  intro out ops c hc
  rw [rpnStep_op _ _ _ (show '-' ∈ opChars by simp [opChars]),
    if_pos ⟨rfl, unaryPrev_op hc⟩]
  simp [List.append_assoc, prec]

/-- Witness for C9, firing the injection after a `*` token. -/
theorem C9_unary_minus_witness :
    rpnStep ([], [], some (Tok.sym '*')) (Tok.sym '-') =
      ([Tok.num 0], ['-'], some (Tok.sym '-')) := by
  rw [C9_unary_minus.1 [] [] '*' (by simp [opChars])]
  with_unfolding_all decide

/-- C10: the tokenizer only recognizes number literals of shape `digits` or
`digits.digits`, so a `.` that is not between digit runs is dropped like
any other unrecognized character; hence `compute ".5" = 5` (not `0.5`, not
an error) while `"1.2.3"` tokenizes as the two numbers `1.2` and `3` and
`compute "1.2.3"` fails with the malformed-expression error. -/
theorem C10_tokenizer_dot :
    (∀ (c : Char) (cs : List Char) (f : ℕ), c.isDigit = false → c ∉ symChars →
        tokenizeFuel (f + 1) (c :: cs) = tokenizeFuel f cs)
    ∧ tokenize ".5" = [Tok.num 5]
    ∧ compute ".5" = .ok 5
    ∧ tokenize "1.2.3" = [Tok.num (6 / 5), Tok.num 3]
    ∧ compute "1.2.3" = .error .malformed := by
  refine ⟨?_, by with_unfolding_all decide, by with_unfolding_all decide,
    by with_unfolding_all decide, by with_unfolding_all decide⟩
  intro c cs f h1 h2
  simp only [tokenizeFuel]
  rw [if_neg (by simp [h1]), if_neg h2]

/-- Witness for C10, skipping a lone `.`. -/
theorem C10_tokenizer_dot_witness :
    ('.' : Char).isDigit = false ∧ ('.' : Char) ∉ symChars
    ∧ tokenizeFuel 2 ['.', '5'] = tokenizeFuel 1 ['5'] :=
  ⟨rfl, by with_unfolding_all decide,
    C10_tokenizer_dot.1 '.' ['5'] 1 rfl (by with_unfolding_all decide)⟩

end CalcPy

